import Mathlib

/-!
Verification of the stardicter conversion pipeline (stardicter/base.py).

This file gives a shallow embedding of the parts of StardictWriter that the
specification talks about: the checksum based change detection, the checksum
cache, the parser that builds the forward and reverse mappings, the entry
formatter with its category buckets, the collator (getsortedwords) and the
package writer (write_words).

Python strings are modelled as Lean strings; Python byte strings as lists of
naturals.  Methods of StardictWriter become functions taking an explicit
configuration record, and the overridable hooks (parse_line, is_data_line)
become function parameters.  File system state (the checksum cache file) is
passed explicitly as an optional association list.
-/

/-- Whitespace test used by the Python str.split and str.strip defaults. -/
def pyIsSpace (c : Char) : Bool :=
  c = ' ' ∨ c = '\t' ∨ c = '\n' ∨ c = '\r' ∨ c = '\x0b' ∨ c = '\x0c'

/-- Helper for pySplit: scans the character list, accumulating the current
token in reverse; whitespace flushes the (nonempty) accumulator. -/
def pySplitAux : List Char → List Char → List String
  | [], acc => if acc = [] then [] else [String.mk acc.reverse]
  | c :: cs, acc =>
      if pyIsSpace c then
        if acc = [] then pySplitAux cs []
        else String.mk acc.reverse :: pySplitAux cs []
      else pySplitAux cs (c :: acc)

/-- Python str.split() with no argument: splits on runs of whitespace and
never returns empty tokens. -/
def pySplit (s : String) : List String :=
  pySplitAux s.data []

/-- Python sep.join(xs). -/
def pyJoin (sep : String) : List String → String
  | [] => ""
  | [x] => x
  | x :: y :: xs => x ++ sep ++ pyJoin sep (y :: xs)

/-- Python str.strip() with no argument: removes leading and trailing
whitespace. -/
def pyStrip (s : String) : String :=
  String.mk (((s.data.dropWhile pyIsSpace).reverse.dropWhile pyIsSpace).reverse)

/-- Association-list lookup modelling Python dict access (last writer wins is
irrelevant because keys are kept unique by construction). -/
def alookup {α : Type} : List (String × α) → String → Option α
  | [], _ => none
  | p :: ps, k => if p.1 = k then some p.2 else alookup ps k

/-- Models Python dict assignment d[k] = v: replaces the value of an existing
key in place, otherwise appends the new pair (insertion order kept). -/
def pyDictSet {α : Type} : List (String × α) → String → α → List (String × α)
  | [], k, v => [(k, v)]
  | p :: ps, k, v => if p.1 = k then (k, v) :: ps else p :: pyDictSet ps k v

/-- Models Python dict.update(changes): every key of changes is assigned in
order. -/
def pyDictUpdate {α : Type} (d : List (String × α)) (changes : List (String × α)) :
    List (String × α) :=
  changes.foldl (fun m kv => pyDictSet m kv.1 kv.2) d

/-- Code points of a Python (unicode) string. -/
def pyCp (s : String) : List Nat :=
  s.data.map Char.toNat

/-- UTF-8 encoding of a single code point, following the standard range
split. -/
def utf8Char (c : Nat) : List Nat :=
  if c < 128 then [c]
  else if c < 2048 then [192 + c / 64, 128 + c % 64]
  else if c < 65536 then [224 + c / 4096, 128 + c / 64 % 64, 128 + c % 64]
  else [240 + c / 262144, 128 + c / 4096 % 64, 128 + c / 64 % 64, 128 + c % 64]

/-- Python s.encode with the utf-8 codec, as a list of byte values. -/
def pyEncodeUtf8 (s : String) : List Nat :=
  (s.data.map (fun c => utf8Char c.toNat)).flatten

/-- Python bytes.lower(): lowercases the ASCII letters A-Z only. -/
def pyBytesLower (bs : List Nat) : List Nat :=
  bs.map (fun b => if 65 ≤ b ∧ b ≤ 90 then b + 32 else b)

/-- Modelled from the spec: the deaccent error handler registered by
stardicter (its module is not under src/) transliterates accented letters to
plain ASCII when encoding with the ascii codec; code points without a known
transliteration are replaced.  Only the transliteration table below is
modelled; the claims do not depend on the exact table. -/
def deaccentChar (c : Nat) : List Nat :=
  if c < 128 then [c]
  else if c = 225 ∨ c = 228 then [97]
  else if c = 233 ∨ c = 283 then [101]
  else if c = 237 then [105]
  else if c = 243 ∨ c = 246 then [111]
  else if c = 250 ∨ c = 367 ∨ c = 252 then [117]
  else if c = 253 then [121]
  else if c = 269 then [99]
  else if c = 271 then [100]
  else if c = 328 then [110]
  else if c = 345 then [114]
  else if c = 353 then [115]
  else if c = 357 then [116]
  else if c = 382 then [122]
  else [63]

/-- Python s.encode with the ascii codec and the deaccent error handler. -/
def pyEncodeDeaccent (s : String) : List Nat :=
  (s.data.map (fun c => deaccentChar c.toNat)).flatten

/-- Modelled from the spec: hashlib.md5 is an external cryptographic digest
(the hashlib module is not part of this repository).  It is modelled as an
injective digest of the hashed byte stream; collision behaviour of the real
MD5 is outside the scope of the embedding.  The hex rendering performed by
hexdigest is a bijection on digests and is elided. -/
def md5digest (bs : List Nat) : List Nat :=
  bs

/-- StardictWriter.is_data_line: the default hook accepts every line. -/
def is_data_line (_line : String) : Bool :=
  true

/-- StardictWriter.get_checksum: feeds the utf-8 encoding of every line
accepted by the is_data_line hook, in order and with no separator, to the
digest.  The hook is a parameter because subclasses override it. -/
def get_checksum (hook : String → Bool) (lines : List String) : List Nat :=
  md5digest ((lines.filter hook).map pyEncodeUtf8).flatten

/-- Configuration of a StardictWriter instance: constructor arguments and the
class attributes the embedded methods read. -/
structure StarCfg where
  ascii : Bool
  notags : Bool
  bidirectional : Bool
  keypref : String
  pref : String
  src : String
  tgt : String
deriving DecidableEq

/-- StardictWriter.get_filename. -/
def get_filename (cfg : StarCfg) (forward : Bool) : String :=
  cfg.pref ++ (if forward then cfg.src ++ "-" ++ cfg.tgt else cfg.tgt ++ "-" ++ cfg.src)
    ++ (if cfg.ascii then "-ascii" else "")
    ++ (if cfg.notags then "-notags" else "")

/-- StardictWriter.get_config_key. -/
def get_config_key (cfg : StarCfg) : String :=
  "md5-" ++ cfg.keypref ++ get_filename cfg true

/-- StardictWriter.load_config: the cache file state is passed explicitly;
none models a missing or unparsable file (IOError or ValueError), for which
the method returns the empty dict. -/
def load_config (file : Option (List (String × List Nat))) : List (String × List Nat) :=
  match file with
  | none => []
  | some m => m

/-- StardictWriter.save_config: loads the current cache, merges the changes
into it and writes the merged mapping back. -/
def save_config (file : Option (List (String × List Nat)))
    (changes : List (String × List Nat)) : Option (List (String × List Nat)) :=
  some (pyDictUpdate (load_config file) changes)

/-- StardictWriter.was_changed: true when no digest is stored under this
writer's config key or the stored digest differs from the fresh checksum. -/
def was_changed (cfg : StarCfg) (hook : String → Bool) (lines : List String)
    (file : Option (List (String × List Nat))) : Bool :=
  match alookup (load_config file) (get_config_key cfg) with
  | none => true
  | some v => v ≠ get_checksum hook lines

/-- StardictWriter.save_checksum: persists the fresh checksum under this
writer's config key. -/
def save_checksum (cfg : StarCfg) (hook : String → Bool) (lines : List String)
    (file : Option (List (String × List Nat))) : Option (List (String × List Nat)) :=
  save_config file [(get_config_key cfg, get_checksum hook lines)]

/-- Predicate used by the C6 counterexample: a source whose is_data_line hook
accepts only the empty line (specialised sources may exclude lines by
content). -/
def onlyEmptyHook (line : String) : Bool :=
  line = ""

/-- UTF-8 encoding of a list of code points. -/
def utf8L (l : List Nat) : List Nat :=
  (l.map utf8Char).flatten

/-- The Word model.  Its module (stardicter/word.py) is not under src/; the
fields are the ones the spec lists and base.py reads: word (the headword),
translation, wtype (space separated tag tokens), note and author. -/
structure Word where
  word : String
  translation : String
  wtype : String
  note : String
  author : String
deriving DecidableEq

/-- Modelled from the spec: Word.reverse (stardicter/word.py is not under
src/) returns a new Word with headword and translation swapped and all other
fields preserved. -/
def Word.reversed (w : Word) : Word :=
  { w with word := w.translation, translation := w.word }

/-- Modelled from the spec: Word.format (stardicter/word.py is not under
src/) renders the Word as a single display line embedding the translation,
the remaining wtype and the note.  No claim depends on the exact text. -/
def wordFormat (w : Word) : String :=
  w.translation ++ (if w.wtype = "" then "" else " [" ++ w.wtype ++ "]") ++
    (if w.note = "" then "" else " " ++ w.note) ++ "\n"

/-- Mutable state of StardictWriter.parse: the forward mapping (self.words),
the reverse mapping (self.reverse) and the accumulated description. -/
structure ParseState where
  words : List (String × List Word)
  reverse : List (String × List Word)
  description : String
deriving DecidableEq

/-- Models the pair of dict operations in parse: create the key with an
empty list when absent, then append the word to its list. -/
def addEntry (m : List (String × List Word)) (k : String) (w : Word) :
    List (String × List Word) :=
  match alookup m k with
  | some ws => pyDictSet m k (ws ++ [w])
  | none => m ++ [(k, [w])]

/-- The body of the inner loop of StardictWriter.parse for one parsed word:
skip words with an empty headword or translation, store the word under its
headword when that is shorter than 256 characters, and, when bidirectional,
store the reversed word under the translation when that is shorter than 256
characters. -/
def storeWord (cfg : StarCfg) (st : ParseState) (w : Word) : ParseState :=
  if w.word = "" ∨ w.translation = "" then st
  else
    let st1 :=
      if w.word.length < 256 then { st with words := addEntry st.words w.word w } else st
    if cfg.bidirectional = true ∧ w.translation.length < 256 then
      { st1 with reverse := addEntry st1.reverse w.translation w.reversed }
    else st1

/-- StardictWriter.is_header_line: tests whether the first character of the
line is the comment marker.  The Python expression line[0] raises IndexError
on an empty line; this is modelled by the none result. -/
def is_header_line (line : String) : Option Bool :=
  match line.data with
  | [] => none
  | c :: _ => some (c = '#')

/-- StardictWriter.add_description: appends line[1:] plus a newline to the
accumulated description. -/
def add_description (st : ParseState) (line : String) : ParseState :=
  { st with description := st.description ++ String.mk (line.data.drop 1) ++ "\n" }

/-- One iteration of the line loop of StardictWriter.parse: skip blank
lines, divert header lines to the description, otherwise parse the line with
the parse_line hook and store every resulting word.  A none result models an
uncaught IndexError from is_header_line. -/
def parse_step (cfg : StarCfg) (pl : String → List Word) (st : ParseState)
    (line : String) : Option ParseState :=
  if pyStrip line = "" then some st
  else
    match is_header_line line with
    | none => none
    | some true => some (add_description st line)
    | some false => some ((pl line).foldl (storeWord cfg) st)

/-- The line loop of StardictWriter.parse. -/
def parse_lines (cfg : StarCfg) (pl : String → List Word) :
    List String → ParseState → Option ParseState
  | [], st => some st
  | l :: ls, st =>
      match parse_step cfg pl st l with
      | none => none
      | some st2 => parse_lines cfg pl ls st2

/-- Python ascending comparison by the translation attribute: w1 sorts no
later than w2 (code point order on the translation strings). -/
def trLe (w1 w2 : Word) : Prop :=
  ¬ List.Lex (· < ·) (pyCp w2.translation) (pyCp w1.translation)

instance : DecidableRel trLe := fun w1 w2 => by
  unfold trLe
  infer_instance

/-- Python list.sort(key=attrgetter(translation)): a stable ascending sort;
every stable sort produces the same output, here insertion sort. -/
def sortByTranslation (ws : List Word) : List Word :=
  List.insertionSort trLe ws

/-- StardictWriter.parse: the line loop followed by the per-key stable sort
of each word list by translation.  The parse_line hook is a parameter
because subclasses override it. -/
def parse (cfg : StarCfg) (pl : String → List Word) (lines : List String) :
    Option ParseState :=
  match parse_lines cfg pl lines ⟨[], [], ""⟩ with
  | none => none
  | some st =>
      some { st with
        words := st.words.map (fun p => (p.1, sortByTranslation p.2)),
        reverse := st.reverse.map (fun p => (p.1, sortByTranslation p.2)) }

/-- The fixed, ordered category marker list of StardictWriter.formatentry
(the last, empty entry is the catch-all). -/
def alltypes : List String :=
  ["n:", "v:", "adj:", "adv:", "prep:", "conj:", "interj:", "num:", ""]

/-- The first category marker of alltypes occurring among the wtype tokens
of the word (the inner loop of formatentry stops at the first match). -/
def findCat (w : Word) : Option String :=
  alltypes.find? (fun k => (pySplit w.wtype).contains k)

/-- The word as stored in its bucket: the matched marker token is removed
from wtype (del tokens[tokens.index(key)] followed by the join). -/
def stripCat (w : Word) (k : String) : Word :=
  { w with wtype := pyJoin " " ((pySplit w.wtype).erase k) }

/-- Whether the irregular marker is among the tokens remaining after the
category marker was removed (the test formatentry performs). -/
def isIrregAfter (w : Word) (k : String) : Bool :=
  ((pySplit w.wtype).erase k).contains "[neprav.]"

/-- One iteration of the classification loop of formatentry: the word is
filed under the first matching marker (prepended when irregular, appended
otherwise) or appended to the catch-all bucket when no marker matches. -/
def fmtStep (typed : String → List Word) (w : Word) : String → List Word :=
  match findCat w with
  | some k =>
      if isIrregAfter w k then
        fun q => if q = k then stripCat w k :: typed q else typed q
      else
        fun q => if q = k then typed q ++ [stripCat w k] else typed q
  | none => fun q => if q = "" then typed q ++ [w] else typed q

/-- The typed buckets formatentry builds from the word list. -/
def formatentryBuckets (ws : List Word) : String → List Word :=
  ws.foldl fmtStep (fun _ => [])

/-- The pango header line FMT_TYPE.format(typ). -/
def fmtTypeHeader (typ : String) : String :=
  "<span size=\"larger\" color=\"darkred\" weight=\"bold\">" ++ typ ++ "</span>\n"

/-- StardictWriter.formatentry: classify the words into the typed buckets,
then render the buckets in the fixed category order, each nonempty marked
bucket under its header, the catch-all after a blank line. -/
def formatentry (ws : List Word) : String :=
  alltypes.foldl
    (fun res typ =>
      let b := formatentryBuckets ws typ
      if 0 < b.length then
        b.foldl (fun r w => r ++ "    " ++ wordFormat w)
          (res ++ (if typ = "" then "\n" else fmtTypeHeader typ))
      else res)
    ""

/-- The irregular-marked words filed under marker k, in input order, as
stored (marker stripped). -/
def irregList (ws : List Word) (k : String) : List Word :=
  ws.filterMap (fun w =>
    match findCat w with
    | some k2 =>
        if k2 = k ∧ isIrregAfter w k2 = true then some (stripCat w k2) else none
    | none => none)

/-- The non-irregular words filed under marker k, in input order, as stored
(marker stripped). -/
def regList (ws : List Word) (k : String) : List Word :=
  ws.filterMap (fun w =>
    match findCat w with
    | some k2 =>
        if k2 = k ∧ isIrregAfter w k2 = false then some (stripCat w k2) else none
    | none => none)

/-- The words matching no category marker, in input order, unmodified. -/
def catchList (ws : List Word) : List Word :=
  ws.filterMap (fun w =>
    match findCat w with
    | some _ => none
    | none => some w)

/-- First irregular word of the C2 counterexample (translation a). -/
def wIrregA : Word :=
  ⟨"h", "a", "n: [neprav.]", "", ""⟩

/-- Second irregular word of the C2 counterexample (translation b). -/
def wIrregB : Word :=
  ⟨"h", "b", "n: [neprav.]", "", ""⟩

/-- A word carrying two category markers, for the C4 witness. -/
def wTwoCats : Word :=
  ⟨"h", "t", "v: n:", "", ""⟩

/-- Scans for the next closing angle bracket: some rest when one exists
(rest is everything after it), none otherwise. -/
def splitGt : List Char → Option (List Char)
  | [] => none
  | c :: cs => if c = '>' then some cs else splitGt cs

/-- Removal of every non-greedy tag span, as the regex sub with the pattern
matching from an opening angle bracket to the nearest closing one does; an
opening bracket with no later closing bracket is kept verbatim.  The fuel
argument (always instantiated with the character count) makes the recursion
structural. -/
def stripTagsFuel : Nat → List Char → List Char
  | 0, cs => cs
  | _ + 1, [] => []
  | fuel + 1, c :: cs =>
      if c = '<' then
        match splitGt cs with
        | some rest => stripTagsFuel fuel rest
        | none => c :: cs
      else c :: stripTagsFuel fuel cs

/-- STRIPTAGS.sub applied to the text. -/
def striptags (s : String) : String :=
  String.mk (stripTagsFuel s.data.length s.data)

/-- StardictWriter.convert on the converting path (convert=True): optionally
strip markup tags, then encode to bytes with the configured codec. -/
def convert (cfg : StarCfg) (text : String) : List Nat :=
  let t := if cfg.notags then striptags text else text
  if cfg.ascii then pyEncodeDeaccent t else pyEncodeUtf8 t

/-- The sort key getsortedwords computes for one headword: the encoded
(de-accented when in ascii mode) byte string, lowercased with bytes.lower. -/
def sortTransform (cfg : StarCfg) (s : String) : List Nat :=
  if cfg.ascii then pyBytesLower (pyEncodeDeaccent s) else pyBytesLower (pyEncodeUtf8 s)

/-- The Python tuple comparison (bytes, str) < (bytes, str): lexicographic on
the byte strings, ties broken by code point order on the original strings. -/
def pyTupLt (x y : List Nat × String) : Prop :=
  List.Lex (· < ·) x.1 y.1 ∨ (x.1 = y.1 ∧ List.Lex (· < ·) (pyCp x.2) (pyCp y.2))

instance : DecidableRel pyTupLt := fun x y => by
  unfold pyTupLt
  infer_instance

/-- Non-strict tuple comparison, as list.sort uses it (x sorts no later than
y exactly when y is not smaller). -/
def tupLe (x y : List Nat × String) : Prop :=
  ¬ pyTupLt y x

instance : DecidableRel tupLe := fun x y => by
  unfold tupLe
  infer_instance

/-- StardictWriter.getsortedwords: build the (transformed, original) pairs,
sort them ascending with the stable list.sort (modelled by insertion sort;
every stable ascending sort yields the same list) and return the original
keys. -/
def getsortedwords (cfg : StarCfg) (words : List String) : List String :=
  (List.insertionSort tupLe (words.map (fun item => (sortTransform cfg item, item)))).map
    (fun t => t.2)

/-- The collation order claimed for getsortedwords: by lowercased transform,
ties broken by the UTF-8 encoded byte value of the original key. -/
def collLt (cfg : StarCfg) (a b : String) : Prop :=
  List.Lex (· < ·) (sortTransform cfg a) (sortTransform cfg b) ∨
    (sortTransform cfg a = sortTransform cfg b ∧
      List.Lex (· < ·) (pyEncodeUtf8 a) (pyEncodeUtf8 b))

/-- One record of the .idx stream: the converted key bytes (followed in the
file by a zero byte), the big-endian offset and the big-endian length. -/
structure IdxRecord where
  key : List Nat
  off : Nat
  len : Nat
deriving DecidableEq

/-- The converted formatted entry written to the .dict stream for one key. -/
def entryFor (cfg : StarCfg) (wm : String → List Word) (k : String) : List Nat :=
  convert cfg (formatentry (wm k))

/-- The loop of StardictWriter.write_words: for each key in collated order
emit the index record at the running offset and append the entry bytes to
the data stream. -/
def write_words_aux (cfg : StarCfg) (wm : String → List Word) :
    List String → Nat → List IdxRecord × List Nat
  | [], _ => ([], [])
  | k :: ks, off =>
      let entry := entryFor cfg wm k
      let rest := write_words_aux cfg wm ks (off + entry.length)
      (⟨convert cfg k, off, entry.length⟩ :: rest.1, entry ++ rest.2)

/-- Dictionary access words[key] for the association list (total, with the
unreachable default of a missing key). -/
def lookupWords (words : List (String × List Word)) : String → List Word :=
  fun k => (alookup words k).getD []

/-- StardictWriter.write_words: the index records and the data bytes
produced for a mapping, starting at offset 0. -/
def write_words (cfg : StarCfg) (words : List (String × List Word)) :
    List IdxRecord × List Nat :=
  write_words_aux cfg (lookupWords words) (getsortedwords cfg (words.map (fun p => p.1))) 0

/-- The index records write_words produces. -/
def wwRecs (cfg : StarCfg) (words : List (String × List Word)) : List IdxRecord :=
  (write_words cfg words).1

/-- The data bytes write_words produces. -/
def wwData (cfg : StarCfg) (words : List (String × List Word)) : List Nat :=
  (write_words cfg words).2

/-- The collated key order write_words iterates over. -/
def wwKeys (cfg : StarCfg) (words : List (String × List Word)) : List String :=
  getsortedwords cfg (words.map (fun p => p.1))

/-- A two-key mapping for the write_words witness. -/
def wwWit : List (String × List Word) :=
  [("b", [⟨"b", "x", "", "", ""⟩]), ("a", [⟨"a", "y", "", "", ""⟩])]

/-- All keys of a mapping satisfy the 255-character length guard. -/
def lenGuard (m : List (String × List Word)) : Prop :=
  ∀ k, (alookup m k).isSome = true → k.length ≤ 255

/-- The parse result with the empty state as (unreachable) default. -/
def parseD (cfg : StarCfg) (pl : String → List Word) (lines : List String) : ParseState :=
  (parse cfg pl lines).getD ⟨[], [], ""⟩

/-- A 255 character headword, for the length-guard witness. -/
def strA255 : String :=
  String.mk (List.replicate 255 'a')

/-- A 256 character headword, for the length-guard witness. -/
def strA256 : String :=
  String.mk (List.replicate 256 'a')

/-- A well-formed word with a 255 character headword. -/
def wA255 : Word :=
  ⟨strA255, "t", "", "", ""⟩

/-- A well-formed word with a 256 character headword. -/
def wA256 : Word :=
  ⟨strA256, "u", "", "", ""⟩

/-- Configuration used by concrete witnesses: bidirectional, no ascii mode,
no tag stripping. -/
def witCfg : StarCfg :=
  ⟨false, false, true, "", "", "cs", "en"⟩

/-- parse_line hook used by the length-guard witness. -/
def witPl (_line : String) : List Word :=
  [wA255, wA256]

theorem alookup_pyDictSet_self {α : Type} (m : List (String × α)) (k : String) (v : α) :
    alookup (pyDictSet m k v) k = some v := by
  induction m with
  | nil => simp [pyDictSet, alookup]
  | cons p ps ih =>
      by_cases h : p.1 = k
      · simp [pyDictSet, h, alookup]
      · simp [pyDictSet, h, alookup, ih]

theorem alookup_pyDictSet_ne {α : Type} (m : List (String × α)) (k k2 : String) (v : α)
    (h : k2 ≠ k) : alookup (pyDictSet m k v) k2 = alookup m k2 := by
  induction m with
  | nil => simp [pyDictSet, alookup, Ne.symm h]
  | cons p ps ih =>
      by_cases hp : p.1 = k
      · simp [pyDictSet, hp, alookup, Ne.symm h]
      · simp [pyDictSet, hp, alookup, ih]

/-- Claim C7: was_changed returns true exactly when no digest is stored in the
cache under this writer's config key or the stored digest differs from the
freshly computed checksum; a missing or unparsable cache file (modelled by the
none state) is treated as the empty cache and never causes a failure. -/
theorem was_changed_iff (cfg : StarCfg) (hook : String → Bool) (lines : List String)
    (file : Option (List (String × List Nat))) :
    (was_changed cfg hook lines file = true ↔
      (alookup (load_config file) (get_config_key cfg) = none ∨
        ∃ v, alookup (load_config file) (get_config_key cfg) = some v ∧
          v ≠ get_checksum hook lines)) ∧
    load_config none = [] := by
  refine ⟨?_, rfl⟩
  unfold was_changed
  cases h : alookup (load_config file) (get_config_key cfg) with
  | none => simp
  | some v =>
      by_cases hv : v = get_checksum hook lines <;> simp [hv]

/-- Claim C8: save_checksum merges the fresh digest into the loaded cache
mapping under this writer's config key and writes the merged mapping back;
every entry stored under a different key is preserved unchanged. -/
theorem save_checksum_frame (cfg : StarCfg) (hook : String → Bool) (lines : List String)
    (file : Option (List (String × List Nat))) (k2 : String)
    (h : k2 ≠ get_config_key cfg) :
    alookup (load_config (save_checksum cfg hook lines file)) k2 =
      alookup (load_config file) k2 ∧
    alookup (load_config (save_checksum cfg hook lines file)) (get_config_key cfg) =
      some (get_checksum hook lines) := by
  constructor
  · simp only [save_checksum, save_config, load_config, pyDictUpdate, List.foldl]
    exact alookup_pyDictSet_ne _ _ _ _ h
  · simp only [save_checksum, save_config, load_config, pyDictUpdate, List.foldl]
    exact alookup_pyDictSet_self _ _ _

/-- Witness for save_checksum_frame at a concrete cache holding an unrelated
entry. -/
theorem save_checksum_frame_witness :
    (let cfg : StarCfg := ⟨false, false, true, "", "", "cs", "en"⟩
     let file := some [("other", [7]), (get_config_key cfg, [1])]
     alookup (load_config (save_checksum cfg is_data_line ["x"] file)) "other" =
        alookup (load_config file) "other" ∧
     alookup (load_config (save_checksum cfg is_data_line ["x"] file)) (get_config_key cfg) =
        some (get_checksum is_data_line ["x"])) := by
  exact save_checksum_frame ⟨false, false, true, "", "", "cs", "en"⟩ is_data_line ["x"]
    (some [("other", [7]), (get_config_key ⟨false, false, true, "", "", "cs", "en"⟩, [1])])
    "other" (by decide)

/-- Claim C10: get_checksum hashes the bare concatenation of the data lines
with no separator, so the different line sequences ab,c and a,bc receive the
same checksum; line boundaries do not contribute to the digest. -/
theorem get_checksum_concat_collision :
    (["ab", "c"] ≠ ["a", "bc"]) ∧
    get_checksum is_data_line ["ab", "c"] = get_checksum is_data_line ["a", "bc"] := by
  constructor
  · decide
  · rfl

theorem utf8Char_ne_nil (c : Nat) : utf8Char c ≠ [] := by
  unfold utf8Char
  split_ifs <;> simp

theorem utf8Char_lex (a b : Nat) (hab : a < b) (s t : List Nat) :
    List.Lex (· < ·) (utf8Char a ++ s) (utf8Char b ++ t) := by
  unfold utf8Char
  by_cases ha1 : a < 128
  · rw [if_pos ha1]
    by_cases hb1 : b < 128
    · rw [if_pos hb1]
      exact List.Lex.rel hab
    · rw [if_neg hb1]
      by_cases hb2 : b < 2048
      · rw [if_pos hb2]
        exact List.Lex.rel (by omega)
      · rw [if_neg hb2]
        by_cases hb3 : b < 65536
        · rw [if_pos hb3]
          exact List.Lex.rel (by omega)
        · rw [if_neg hb3]
          exact List.Lex.rel (by omega)
  · rw [if_neg ha1]
    have hb1 : ¬ b < 128 := by omega
    rw [if_neg hb1]
    by_cases ha2 : a < 2048
    · rw [if_pos ha2]
      by_cases hb2 : b < 2048
      · rw [if_pos hb2]
        rcases Nat.lt_or_ge (a / 64) (b / 64) with hd | hd
        · exact List.Lex.rel (by omega)
        · have he : 192 + a / 64 = 192 + b / 64 := by omega
          rw [he]
          exact List.Lex.cons (List.Lex.rel (by omega))
      · rw [if_neg hb2]
        by_cases hb3 : b < 65536
        · rw [if_pos hb3]
          exact List.Lex.rel (by omega)
        · rw [if_neg hb3]
          exact List.Lex.rel (by omega)
    · rw [if_neg ha2]
      have hb2 : ¬ b < 2048 := by omega
      rw [if_neg hb2]
      by_cases ha3 : a < 65536
      · rw [if_pos ha3]
        by_cases hb3 : b < 65536
        · rw [if_pos hb3]
          rcases Nat.lt_or_ge (a / 4096) (b / 4096) with hd | hd
          · exact List.Lex.rel (by omega)
          · have he : 224 + a / 4096 = 224 + b / 4096 := by omega
            rw [he]
            rcases Nat.lt_or_ge (a / 64 % 64) (b / 64 % 64) with hd2 | hd2
            · exact List.Lex.cons (List.Lex.rel (by omega))
            · have he2 : 128 + a / 64 % 64 = 128 + b / 64 % 64 := by omega
              rw [he2]
              exact List.Lex.cons (List.Lex.cons (List.Lex.rel (by omega)))
        · rw [if_neg hb3]
          exact List.Lex.rel (by omega)
      · rw [if_neg ha3]
        have hb3 : ¬ b < 65536 := by omega
        rw [if_neg hb3]
        rcases Nat.lt_or_ge (a / 262144) (b / 262144) with hd | hd
        · exact List.Lex.rel (by omega)
        · have he : 240 + a / 262144 = 240 + b / 262144 := by omega
          rw [he]
          rcases Nat.lt_or_ge (a / 4096 % 64) (b / 4096 % 64) with hd2 | hd2
          · exact List.Lex.cons (List.Lex.rel (by omega))
          · have he2 : 128 + a / 4096 % 64 = 128 + b / 4096 % 64 := by omega
            rw [he2]
            rcases Nat.lt_or_ge (a / 64 % 64) (b / 64 % 64) with hd3 | hd3
            · exact List.Lex.cons (List.Lex.cons (List.Lex.rel (by omega)))
            · have he3 : 128 + a / 64 % 64 = 128 + b / 64 % 64 := by omega
              rw [he3]
              exact List.Lex.cons (List.Lex.cons (List.Lex.cons (List.Lex.rel (by omega))))

theorem lex_append_left {r : Nat → Nat → Prop} (u : List Nat) {x y : List Nat}
    (h : List.Lex r x y) : List.Lex r (u ++ x) (u ++ y) := by
  induction u with
  | nil => exact h
  | cons c cs ih => exact List.Lex.cons ih

theorem utf8L_lex {a b : List Nat} (h : List.Lex (· < ·) a b) :
    List.Lex (· < ·) (utf8L a) (utf8L b) := by
  induction h with
  | nil =>
      rename_i c l
      show List.Lex (· < ·) [] (utf8L (c :: l))
      have hne : utf8L (c :: l) ≠ [] := by
        simp only [utf8L, List.map_cons, List.flatten_cons]
        intro hcon
        exact utf8Char_ne_nil c (List.append_eq_nil.mp hcon).1
      cases hx : utf8L (c :: l) with
      | nil => exact absurd hx hne
      | cons d ds => exact List.Lex.nil
  | @rel c l1 d l2 hcd =>
      show List.Lex (· < ·) (utf8L (c :: l1)) (utf8L (d :: l2))
      simp only [utf8L, List.map_cons, List.flatten_cons]
      exact utf8Char_lex c d hcd _ _
  | @cons c l1 l2 _h ih =>
      show List.Lex (· < ·) (utf8L (c :: l1)) (utf8L (c :: l2))
      simp only [utf8L, List.map_cons, List.flatten_cons]
      exact lex_append_left _ ih

theorem utf8L_inj {a b : List Nat} (h : utf8L a = utf8L b) : a = b := by
  by_contra hne
  have inst : IsTrichotomous (List Nat) (List.Lex (· < ·)) := inferInstance
  rcases inst.trichotomous a b with h1 | h2 | h3
  · have := utf8L_lex h1
    rw [h] at this
    exact (asymm this) this
  · exact hne h2
  · have := utf8L_lex h3
    rw [h] at this
    exact (asymm this) this

theorem pyCp_inj {s1 s2 : String} (h : pyCp s1 = pyCp s2) : s1 = s2 := by
  have hchar : Function.Injective Char.toNat := by
    intro a b hab
    exact Char.ext (UInt32.toNat.inj hab)
  have hdata : s1.data = s2.data := List.map_injective_iff.mpr hchar h
  exact congrArg String.mk hdata

theorem pyEncodeUtf8_eq_utf8L (s : String) : pyEncodeUtf8 s = utf8L (pyCp s) := by
  simp [pyEncodeUtf8, utf8L, pyCp, List.map_map, Function.comp_def]

theorem pyEncodeUtf8_inj {s1 s2 : String} (h : pyEncodeUtf8 s1 = pyEncodeUtf8 s2) :
    s1 = s2 := by
  rw [pyEncodeUtf8_eq_utf8L, pyEncodeUtf8_eq_utf8L] at h
  exact pyCp_inj (utf8L_inj h)

theorem pyEncodeUtf8_ne_nil {s : String} (h : s ≠ "") : pyEncodeUtf8 s ≠ [] := by
  intro hcon
  exact h (@pyEncodeUtf8_inj s "" hcon)

theorem get_checksum_decomp (hook : String → Bool) (u : List String) (x : String)
    (v : List String) :
    get_checksum hook (u ++ x :: v) =
      get_checksum hook u ++ ((if hook x then pyEncodeUtf8 x else []) ++ get_checksum hook v) := by
  unfold get_checksum md5digest
  rw [List.filter_append, List.filter_cons]
  by_cases hx : hook x <;> simp [hx]

/-- Claim C6 counterexample: with an is_data_line hook that accepts only the
empty line, replacing the (data) line at index 0 of the one-line source by a
different, non-data line leaves the checksum unchanged, because the digest
input is the empty byte string both before and after the change.  This also
holds for the real MD5, since both digest inputs are byte-identical. -/
theorem get_checksum_change_counterexample :
    onlyEmptyHook "" = true ∧ ("x" : String) ≠ "" ∧ (0 : Nat) < [""].length ∧
    ([""].set 0 "x" ≠ [""]) ∧
    get_checksum onlyEmptyHook ([""].set 0 "x") = get_checksum onlyEmptyHook [""] := by
  refine ⟨by decide, by decide, by decide, by decide, rfl⟩

/-- Claim C6 (amended): for a fixed source and fixed is_data_line hook the
checksum is deterministic; changing the single data line at index i to a new
value changes the checksum provided the new line is still a data line or the
old line was nonempty (with a non-data, empty-to-anything replacement the
digest input can be unchanged); changing a non-data line to another non-data
line leaves the checksum unchanged.  The external MD5 digest is modelled as
injective. -/
theorem get_checksum_change_detection (hook : String → Bool) (lines : List String)
    (i : Nat) (l2 : String) (h : i < lines.length) :
    get_checksum hook lines = get_checksum hook lines ∧
    (hook lines[i] = true → l2 ≠ lines[i] → (hook l2 = true ∨ lines[i] ≠ "") →
      get_checksum hook (lines.set i l2) ≠ get_checksum hook lines) ∧
    (hook lines[i] = false → hook l2 = false →
      get_checksum hook (lines.set i l2) = get_checksum hook lines) := by
  have hset : lines.set i l2 = lines.take i ++ l2 :: lines.drop (i + 1) := by
    rw [List.set_eq_take_append_cons_drop, if_pos h]
  have h1 : lines.take i ++ lines.drop i = lines := List.take_append_drop i lines
  rw [← List.getElem_cons_drop lines i h] at h1
  have hL : get_checksum hook lines =
      get_checksum hook (lines.take i) ++
        ((if hook lines[i] then pyEncodeUtf8 lines[i] else []) ++
          get_checksum hook (lines.drop (i + 1))) := by
    conv_lhs => rw [← h1]
    rw [get_checksum_decomp]
  have hS : get_checksum hook (lines.set i l2) =
      get_checksum hook (lines.take i) ++
        ((if hook l2 then pyEncodeUtf8 l2 else []) ++
          get_checksum hook (lines.drop (i + 1))) := by
    rw [hset, get_checksum_decomp]
  refine ⟨rfl, ?_, ?_⟩
  · intro hold hne hdisj hcon
    rw [hS, hL, if_pos hold] at hcon
    by_cases hl2 : hook l2
    · rw [if_pos hl2] at hcon
      have h2 := List.append_cancel_right (List.append_cancel_left hcon)
      exact hne (pyEncodeUtf8_inj h2)
    · have holdne : lines[i] ≠ "" := by
        rcases hdisj with hd | hd
        · exact absurd hd (by simp [hl2])
        · exact hd
      rw [if_neg hl2] at hcon
      have h2 := List.append_cancel_left hcon
      have hlen := congrArg List.length h2
      rw [List.nil_append, List.length_append] at hlen
      have : (pyEncodeUtf8 lines[i]).length = 0 := by omega
      exact pyEncodeUtf8_ne_nil holdne (List.length_eq_zero.mp this)
  · intro hold hl2
    rw [hS, hL]
    simp [hold, hl2]

/-- Witness for get_checksum_change_detection with the default is_data_line
hook: changing the first line of a two-line source changes the checksum, and
the determinism conjunct holds. -/
theorem get_checksum_change_detection_witness :
    is_data_line ("a" : String) = true ∧ ("c" : String) ≠ "a" ∧
    get_checksum is_data_line (["a", "b"].set 0 "c") ≠ get_checksum is_data_line ["a", "b"] := by
  refine ⟨rfl, by decide, ?_⟩
  exact (get_checksum_change_detection is_data_line ["a", "b"] 0 "c" (by decide)).2.1
    rfl (by decide) (Or.inl rfl)

theorem alookup_append_left {α : Type} (m m2 : List (String × α)) (k : String) (v : α)
    (h : alookup m k = some v) : alookup (m ++ m2) k = some v := by
  induction m with
  | nil => simp [alookup] at h
  | cons p ps ih =>
      by_cases hp : p.1 = k
      · simpa [alookup, hp] using h
      · simp only [alookup, hp, if_false, List.cons_append] at h ⊢
        exact ih h

theorem alookup_append_isSome {α : Type} (m m2 : List (String × α)) (k : String)
    (h : (alookup (m ++ m2) k).isSome = true) :
    (alookup m k).isSome = true ∨ (alookup m2 k).isSome = true := by
  induction m with
  | nil => exact Or.inr (by simpa [alookup] using h)
  | cons p ps ih =>
      by_cases hp : p.1 = k
      · exact Or.inl (by simp [alookup, hp])
      · simp only [List.cons_append, alookup, hp, if_false] at h
        rcases ih h with h2 | h2
        · exact Or.inl (by simpa [alookup, hp] using h2)
        · exact Or.inr h2

theorem alookup_append_self_of_none {α : Type} (m : List (String × α)) (k : String) (v : α)
    (h : alookup m k = none) : alookup (m ++ [(k, v)]) k = some v := by
  induction m with
  | nil => simp [alookup]
  | cons p ps ih =>
      by_cases hp : p.1 = k
      · simp [alookup, hp] at h
      · simp only [alookup, hp, if_false, List.cons_append] at h ⊢
        exact ih h

theorem alookup_addEntry_self (m : List (String × List Word)) (k : String) (w : Word) :
    (alookup (addEntry m k w) k).isSome = true := by
  unfold addEntry
  cases hm : alookup m k with
  | some ws => simp [alookup_pyDictSet_self]
  | none => simp [alookup_append_self_of_none m k [w] hm]

theorem alookup_isSome_addEntry (m : List (String × List Word)) (k : String) (w : Word)
    (k2 : String) (h : (alookup m k2).isSome = true) :
    (alookup (addEntry m k w) k2).isSome = true := by
  unfold addEntry
  cases hm : alookup m k with
  | some ws =>
      by_cases hk : k2 = k
      · subst hk
        simp [alookup_pyDictSet_self]
      · rw [alookup_pyDictSet_ne _ _ _ _ hk]
        exact h
  | none =>
      obtain ⟨v, hv⟩ := Option.isSome_iff_exists.mp h
      rw [alookup_append_left _ _ _ _ hv]
      rfl

theorem alookup_addEntry_isSome_inv (m : List (String × List Word)) (k : String) (w : Word)
    (k2 : String) (h : (alookup (addEntry m k w) k2).isSome = true) :
    k2 = k ∨ (alookup m k2).isSome = true := by
  unfold addEntry at h
  cases hm : alookup m k with
  | some ws =>
      rw [hm] at h
      by_cases hk : k2 = k
      · exact Or.inl hk
      · rw [alookup_pyDictSet_ne _ _ _ _ hk] at h
        exact Or.inr h
  | none =>
      rw [hm] at h
      rcases alookup_append_isSome _ _ _ h with h2 | h2
      · exact Or.inr h2
      · by_cases hk : k = k2
        · exact Or.inl hk.symm
        · simp [alookup, hk] at h2

theorem storeWord_words_mono (cfg : StarCfg) (st : ParseState) (w : Word) (k : String)
    (h : (alookup st.words k).isSome = true) :
    (alookup (storeWord cfg st w).words k).isSome = true := by
  unfold storeWord
  by_cases hskip : w.word = "" ∨ w.translation = ""
  · simpa [hskip] using h
  · simp only [if_neg hskip]
    by_cases hlen : w.word.length < 256 <;>
      by_cases hbi : cfg.bidirectional = true ∧ w.translation.length < 256 <;>
        simp only [if_pos, if_neg, hlen, hbi, if_true, if_false] <;>
          first
            | exact alookup_isSome_addEntry _ _ _ _ h
            | exact h

theorem storeWord_reverse_mono (cfg : StarCfg) (st : ParseState) (w : Word) (k : String)
    (h : (alookup st.reverse k).isSome = true) :
    (alookup (storeWord cfg st w).reverse k).isSome = true := by
  unfold storeWord
  by_cases hskip : w.word = "" ∨ w.translation = ""
  · simpa [hskip] using h
  · simp only [if_neg hskip]
    by_cases hlen : w.word.length < 256 <;>
      by_cases hbi : cfg.bidirectional = true ∧ w.translation.length < 256 <;>
        simp only [if_pos, if_neg, hlen, hbi, if_true, if_false] <;>
          first
            | exact alookup_isSome_addEntry _ _ _ _ h
            | exact h

theorem storeWord_adds (cfg : StarCfg) (st : ParseState) (w : Word)
    (hne : ¬ (w.word = "" ∨ w.translation = "")) :
    (w.word.length < 256 → (alookup (storeWord cfg st w).words w.word).isSome = true) ∧
    (cfg.bidirectional = true → w.translation.length < 256 →
      (alookup (storeWord cfg st w).reverse w.translation).isSome = true) := by
  unfold storeWord
  simp only [if_neg hne]
  constructor
  · intro hlen
    by_cases hbi : cfg.bidirectional = true ∧ w.translation.length < 256 <;>
      simp only [if_pos, if_neg, hlen, hbi, if_true, if_false] <;>
        exact alookup_addEntry_self _ _ _
  · intro hbi hlen
    simp only [if_pos (And.intro hbi hlen)]
    exact alookup_addEntry_self _ _ _

theorem foldl_storeWord_words_mono (cfg : StarCfg) (ws : List Word) :
    ∀ (st : ParseState) (k : String), (alookup st.words k).isSome = true →
      (alookup (ws.foldl (storeWord cfg) st).words k).isSome = true := by
  induction ws with
  | nil => exact fun st k h => h
  | cons v vs ih => exact fun st k h => ih _ k (storeWord_words_mono cfg st v k h)

theorem foldl_storeWord_reverse_mono (cfg : StarCfg) (ws : List Word) :
    ∀ (st : ParseState) (k : String), (alookup st.reverse k).isSome = true →
      (alookup (ws.foldl (storeWord cfg) st).reverse k).isSome = true := by
  induction ws with
  | nil => exact fun st k h => h
  | cons v vs ih => exact fun st k h => ih _ k (storeWord_reverse_mono cfg st v k h)

theorem foldl_storeWord_adds (cfg : StarCfg) (ws : List Word) :
    ∀ (st : ParseState) (w : Word), w ∈ ws → ¬ (w.word = "" ∨ w.translation = "") →
      (w.word.length < 256 →
        (alookup (ws.foldl (storeWord cfg) st).words w.word).isSome = true) ∧
      (cfg.bidirectional = true → w.translation.length < 256 →
        (alookup (ws.foldl (storeWord cfg) st).reverse w.translation).isSome = true) := by
  induction ws with
  | nil => intro st w hmem; cases hmem
  | cons v vs ih =>
      intro st w hmem hne
      rcases List.mem_cons.mp hmem with heq | hmem2
      · subst heq
        refine ⟨fun hlen => ?_, fun hbi hlen => ?_⟩
        · exact foldl_storeWord_words_mono cfg vs _ _ ((storeWord_adds cfg st w hne).1 hlen)
        · exact foldl_storeWord_reverse_mono cfg vs _ _
            ((storeWord_adds cfg st w hne).2 hbi hlen)
      · exact ih _ w hmem2 hne

theorem lenGuard_nil : lenGuard [] := by
  intro k h
  simp [alookup] at h

theorem lenGuard_addEntry (m : List (String × List Word)) (k : String) (w : Word)
    (hm : lenGuard m) (hk : k.length ≤ 255) : lenGuard (addEntry m k w) := by
  intro k2 h2
  rcases alookup_addEntry_isSome_inv m k w k2 h2 with h | h
  · subst h
    exact hk
  · exact hm k2 h

theorem storeWord_lenGuard (cfg : StarCfg) (st : ParseState) (w : Word)
    (h1 : lenGuard st.words) (h2 : lenGuard st.reverse) :
    lenGuard (storeWord cfg st w).words ∧ lenGuard (storeWord cfg st w).reverse := by
  unfold storeWord
  by_cases hskip : w.word = "" ∨ w.translation = ""
  · simp only [if_pos hskip]
    exact ⟨h1, h2⟩
  · simp only [if_neg hskip]
    by_cases hlen : w.word.length < 256 <;>
      by_cases hbi : cfg.bidirectional = true ∧ w.translation.length < 256 <;>
        simp only [if_pos, if_neg, hlen, hbi, if_true, if_false] <;>
          refine ⟨?_, ?_⟩ <;>
            first
              | exact lenGuard_addEntry _ _ _ h1 (by omega)
              | exact lenGuard_addEntry _ _ _ h2 (by omega)
              | exact h1
              | exact h2

theorem foldl_storeWord_lenGuard (cfg : StarCfg) (ws : List Word) :
    ∀ st : ParseState, lenGuard st.words → lenGuard st.reverse →
      lenGuard (ws.foldl (storeWord cfg) st).words ∧
      lenGuard (ws.foldl (storeWord cfg) st).reverse := by
  induction ws with
  | nil => exact fun st h1 h2 => ⟨h1, h2⟩
  | cons v vs ih =>
      intro st h1 h2
      have hs := storeWord_lenGuard cfg st v h1 h2
      exact ih _ hs.1 hs.2

theorem string_of_data_nil {s : String} (h : s.data = []) : s = "" := by
  cases s with
  | mk d =>
      simp only [String.data] at h
      rw [h]

theorem parse_step_isSome (cfg : StarCfg) (pl : String → List Word) (st : ParseState)
    (line : String) : (parse_step cfg pl st line).isSome = true := by
  unfold parse_step
  by_cases hb : pyStrip line = ""
  · simp [hb]
  · rw [if_neg hb]
    cases hd : is_header_line line with
    | none =>
        exfalso
        unfold is_header_line at hd
        cases hl : line.data with
        | nil => exact hb (by rw [string_of_data_nil hl]; rfl)
        | cons c cs => rw [hl] at hd; cases hd
    | some b => cases b <;> simp

theorem parse_step_words_mono (cfg : StarCfg) (pl : String → List Word) (st : ParseState)
    (line : String) (st2 : ParseState) (h : parse_step cfg pl st line = some st2)
    (k : String) (hk : (alookup st.words k).isSome = true) :
    (alookup st2.words k).isSome = true := by
  unfold parse_step at h
  by_cases hb : pyStrip line = ""
  · rw [if_pos hb] at h
    cases h
    exact hk
  · rw [if_neg hb] at h
    cases hd : is_header_line line with
    | none => rw [hd] at h; cases h
    | some b =>
        rw [hd] at h
        cases b
        · cases h
          exact foldl_storeWord_words_mono cfg (pl line) st k hk
        · cases h
          exact hk

theorem parse_step_reverse_mono (cfg : StarCfg) (pl : String → List Word) (st : ParseState)
    (line : String) (st2 : ParseState) (h : parse_step cfg pl st line = some st2)
    (k : String) (hk : (alookup st.reverse k).isSome = true) :
    (alookup st2.reverse k).isSome = true := by
  unfold parse_step at h
  by_cases hb : pyStrip line = ""
  · rw [if_pos hb] at h
    cases h
    exact hk
  · rw [if_neg hb] at h
    cases hd : is_header_line line with
    | none => rw [hd] at h; cases h
    | some b =>
        rw [hd] at h
        cases b
        · cases h
          exact foldl_storeWord_reverse_mono cfg (pl line) st k hk
        · cases h
          exact hk

theorem parse_step_lenGuard (cfg : StarCfg) (pl : String → List Word) (st : ParseState)
    (line : String) (st2 : ParseState) (h : parse_step cfg pl st line = some st2)
    (h1 : lenGuard st.words) (h2 : lenGuard st.reverse) :
    lenGuard st2.words ∧ lenGuard st2.reverse := by
  unfold parse_step at h
  by_cases hb : pyStrip line = ""
  · rw [if_pos hb] at h
    cases h
    exact ⟨h1, h2⟩
  · rw [if_neg hb] at h
    cases hd : is_header_line line with
    | none => rw [hd] at h; cases h
    | some b =>
        rw [hd] at h
        cases b
        · cases h
          exact foldl_storeWord_lenGuard cfg (pl line) st h1 h2
        · cases h
          exact ⟨h1, h2⟩

theorem parse_lines_isSome (cfg : StarCfg) (pl : String → List Word) (lines : List String) :
    ∀ st : ParseState, (parse_lines cfg pl lines st).isSome = true := by
  induction lines with
  | nil => intro st; rfl
  | cons l ls ih =>
      intro st
      unfold parse_lines
      cases hs : parse_step cfg pl st l with
      | none =>
          have := parse_step_isSome cfg pl st l
          rw [hs] at this
          cases this
      | some st2 => exact ih st2

theorem parse_lines_words_mono (cfg : StarCfg) (pl : String → List Word) (lines : List String) :
    ∀ (st st2 : ParseState), parse_lines cfg pl lines st = some st2 →
      ∀ k, (alookup st.words k).isSome = true → (alookup st2.words k).isSome = true := by
  induction lines with
  | nil =>
      intro st st2 h k hk
      cases h
      exact hk
  | cons l ls ih =>
      intro st st2 h k hk
      unfold parse_lines at h
      cases hs : parse_step cfg pl st l with
      | none => rw [hs] at h; cases h
      | some stm =>
          rw [hs] at h
          exact ih stm st2 h k (parse_step_words_mono cfg pl st l stm hs k hk)

theorem parse_lines_reverse_mono (cfg : StarCfg) (pl : String → List Word) (lines : List String) :
    ∀ (st st2 : ParseState), parse_lines cfg pl lines st = some st2 →
      ∀ k, (alookup st.reverse k).isSome = true → (alookup st2.reverse k).isSome = true := by
  induction lines with
  | nil =>
      intro st st2 h k hk
      cases h
      exact hk
  | cons l ls ih =>
      intro st st2 h k hk
      unfold parse_lines at h
      cases hs : parse_step cfg pl st l with
      | none => rw [hs] at h; cases h
      | some stm =>
          rw [hs] at h
          exact ih stm st2 h k (parse_step_reverse_mono cfg pl st l stm hs k hk)

theorem parse_lines_lenGuard (cfg : StarCfg) (pl : String → List Word) (lines : List String) :
    ∀ (st st2 : ParseState), parse_lines cfg pl lines st = some st2 →
      lenGuard st.words → lenGuard st.reverse → lenGuard st2.words ∧ lenGuard st2.reverse := by
  induction lines with
  | nil =>
      intro st st2 h h1 h2
      cases h
      exact ⟨h1, h2⟩
  | cons l ls ih =>
      intro st st2 h h1 h2
      unfold parse_lines at h
      cases hs : parse_step cfg pl st l with
      | none => rw [hs] at h; cases h
      | some stm =>
          rw [hs] at h
          have hg := parse_step_lenGuard cfg pl st l stm hs h1 h2
          exact ih stm st2 h hg.1 hg.2

theorem parse_lines_adds (cfg : StarCfg) (pl : String → List Word) (lines : List String) :
    ∀ (st st2 : ParseState), parse_lines cfg pl lines st = some st2 →
      ∀ line ∈ lines, pyStrip line ≠ "" → is_header_line line = some false →
        ∀ w ∈ pl line, ¬ (w.word = "" ∨ w.translation = "") →
          (w.word.length < 256 → (alookup st2.words w.word).isSome = true) ∧
          (cfg.bidirectional = true → w.translation.length < 256 →
            (alookup st2.reverse w.translation).isSome = true) := by
  induction lines with
  | nil =>
      intro st st2 h line hmem
      cases hmem
  | cons l ls ih =>
      intro st st2 h line hmem hblank hhdr w hw hne
      unfold parse_lines at h
      rcases List.mem_cons.mp hmem with heq | hmem2
      · subst heq
        have hs : parse_step cfg pl st line = some ((pl line).foldl (storeWord cfg) st) := by
          unfold parse_step
          rw [if_neg hblank, hhdr]
        rw [hs] at h
        have hadds := foldl_storeWord_adds cfg (pl line) st w hw hne
        refine ⟨fun hlen => ?_, fun hbi hlen => ?_⟩
        · exact parse_lines_words_mono cfg pl ls _ st2 h w.word (hadds.1 hlen)
        · exact parse_lines_reverse_mono cfg pl ls _ st2 h w.translation (hadds.2 hbi hlen)
      · cases hs : parse_step cfg pl st l with
        | none => rw [hs] at h; cases h
        | some stm =>
            rw [hs] at h
            exact ih stm st2 h line hmem2 hblank hhdr w hw hne

theorem alookup_map_value {α β : Type} (f : α → β) (m : List (String × α)) (k : String) :
    alookup (m.map (fun p => (p.1, f p.2))) k = (alookup m k).map f := by
  induction m with
  | nil => rfl
  | cons p ps ih =>
      by_cases hp : p.1 = k <;> simp [alookup, hp, ih]

theorem parse_isSome (cfg : StarCfg) (pl : String → List Word) (lines : List String) :
    (parse cfg pl lines).isSome = true := by
  unfold parse
  cases hq : parse_lines cfg pl lines ⟨[], [], ""⟩ with
  | none =>
      have := parse_lines_isSome cfg pl lines ⟨[], [], ""⟩
      rw [hq] at this
      cases this
  | some st => rfl

/-- Claim C9: parse applies is_header_line only to lines that are non-empty
after stripping whitespace (blank lines are skipped first), so the
first-character access inside is_header_line never indexes an empty string
during parse: on the empty string alone is_header_line is an out-of-range
access (modelled by the none result), yet parse never fails, for every
parse_line hook, configuration and source text. -/
theorem parse_header_line_safety :
    is_header_line "" = none ∧
    ∀ (cfg : StarCfg) (pl : String → List Word) (lines : List String),
      (parse cfg pl lines).isSome = true :=
  ⟨rfl, parse_isSome⟩

/-- Claim C3: every key of the forward mapping produced by parse is at most
255 characters long (so a headword of 256 or more characters is excluded),
and an otherwise well-formed word from a non-blank non-header line whose
headword is shorter than 256 characters is included; the same guard applies
to the translation for the reverse mapping. -/
theorem parse_length_guard (cfg : StarCfg) (pl : String → List Word)
    (lines : List String) (st : ParseState) (hp : parse cfg pl lines = some st) :
    (∀ k, (alookup st.words k).isSome = true → k.length ≤ 255) ∧
    (∀ k, (alookup st.reverse k).isSome = true → k.length ≤ 255) ∧
    (∀ line ∈ lines, pyStrip line ≠ "" → is_header_line line = some false →
      ∀ w ∈ pl line, w.word ≠ "" → w.translation ≠ "" →
        (w.word.length < 256 → (alookup st.words w.word).isSome = true) ∧
        (cfg.bidirectional = true → w.translation.length < 256 →
          (alookup st.reverse w.translation).isSome = true)) := by
  unfold parse at hp
  cases hq : parse_lines cfg pl lines ⟨[], [], ""⟩ with
  | none => rw [hq] at hp; cases hp
  | some st0 =>
      rw [hq] at hp
      injection hp with hp2
      subst hp2
      have hg := parse_lines_lenGuard cfg pl lines ⟨[], [], ""⟩ st0 hq lenGuard_nil lenGuard_nil
      refine ⟨?_, ?_, ?_⟩
      · intro k hk
        rw [alookup_map_value] at hk
        have h0 : (alookup st0.words k).isSome = true := by
          cases ho : alookup st0.words k
          · rw [ho] at hk; cases hk
          · rfl
        exact hg.1 k h0
      · intro k hk
        rw [alookup_map_value] at hk
        have h0 : (alookup st0.reverse k).isSome = true := by
          cases ho : alookup st0.reverse k
          · rw [ho] at hk; cases hk
          · rfl
        exact hg.2 k h0
      · intro line hmem hblank hhdr w hw hw1 hw2
        have hne : ¬ (w.word = "" ∨ w.translation = "") := by
          intro hcon
          rcases hcon with hc | hc
          · exact hw1 hc
          · exact hw2 hc
        have hadds := parse_lines_adds cfg pl lines _ st0 hq line hmem hblank hhdr w hw hne
        refine ⟨fun hlen => ?_, fun hbi hlen => ?_⟩
        · show (alookup (st0.words.map fun p => (p.1, sortByTranslation p.2)) w.word).isSome = true
          rw [alookup_map_value]
          have h0 := hadds.1 hlen
          cases ho : alookup st0.words w.word
          · rw [ho] at h0; cases h0
          · rfl
        · show (alookup (st0.reverse.map fun p => (p.1, sortByTranslation p.2))
              w.translation).isSome = true
          rw [alookup_map_value]
          have h0 := hadds.2 hbi hlen
          cases ho : alookup st0.reverse w.translation
          · rw [ho] at h0; cases h0
          · rfl

set_option maxRecDepth 40000 in
/-- Witness for parse_length_guard: parsing one line with a hook producing a
well-formed word with a 255 character headword and one with a 256 character
headword includes the former (and its reverse key) and excludes the
latter. -/
theorem parse_length_guard_witness :
    parse witCfg witPl ["x"] = some (parseD witCfg witPl ["x"]) ∧
    (alookup (parseD witCfg witPl ["x"]).words strA255).isSome = true ∧
    (alookup (parseD witCfg witPl ["x"]).reverse "t").isSome = true ∧
    (alookup (parseD witCfg witPl ["x"]).words strA256).isSome = false := by
  have hp : parse witCfg witPl ["x"] = some (parseD witCfg witPl ["x"]) := by
    have hs := parse_isSome witCfg witPl ["x"]
    cases ho : parse witCfg witPl ["x"] with
    | none => rw [ho] at hs; cases hs
    | some st => unfold parseD; rw [ho]; rfl
  have hthm := parse_length_guard witCfg witPl ["x"] _ hp
  have hline := hthm.2.2 "x" (by decide) (by decide) (by decide)
  refine ⟨hp, ?_, ?_, ?_⟩
  · exact (hline wA255 (by decide) (by decide) (by decide)).1 (by decide)
  · exact (hline wA255 (by decide) (by decide) (by decide)).2 (by decide) (by decide)
  · cases hb : (alookup (parseD witCfg witPl ["x"]).words strA256).isSome
    · rfl
    · exact absurd (hthm.1 strA256 hb) (by decide)

theorem string_mk_ne_nilstr {l : List Char} (h : l ≠ []) : String.mk l ≠ "" := by
  intro hcon
  exact h (congrArg String.data hcon)

theorem nilstr_not_mem_pySplitAux : ∀ (cs acc : List Char), "" ∉ pySplitAux cs acc := by
  intro cs
  induction cs with
  | nil =>
      intro acc
      unfold pySplitAux
      by_cases ha : acc = []
      · simp [ha]
      · simp only [if_neg ha]
        intro hmem
        exact string_mk_ne_nilstr (by simpa using ha) (List.mem_singleton.mp hmem).symm
  | cons c cs ih =>
      intro acc
      unfold pySplitAux
      by_cases hs : pyIsSpace c
      · simp only [if_pos hs]
        by_cases ha : acc = []
        · simp only [if_pos ha]
          exact ih []
        · simp only [if_neg ha]
          intro hmem
          rcases List.mem_cons.mp hmem with h1 | h1
          · exact string_mk_ne_nilstr (by simpa using ha) h1.symm
          · exact ih [] h1
      · simp only [if_neg hs]
        exact ih (c :: acc)

theorem nilstr_not_mem_pySplit (s : String) : "" ∉ pySplit s :=
  nilstr_not_mem_pySplitAux s.data []

theorem findCat_ne_some_nilstr (w : Word) : findCat w ≠ some "" := by
  intro h
  have hp := List.find?_some h
  have hmem : ("" : String) ∈ pySplit w.wtype := by simpa using hp
  exact nilstr_not_mem_pySplit w.wtype hmem

theorem find?_prefix_first {p : String → Bool} (pre : List String) (k : String)
    (post : List String) (hpre : ∀ x ∈ pre, p x = false) (hk : p k = true) :
    (pre ++ k :: post).find? p = some k := by
  induction pre with
  | nil => exact List.find?_cons_of_pos _ hk
  | cons x xs ih =>
      have hx : p x = false := hpre x (List.mem_cons_self x xs)
      rw [List.cons_append, List.find?_cons_of_neg _ (by simp [hx])]
      exact ih (fun y hy => hpre y (List.mem_cons_of_mem x hy))

theorem foldl_fmtStep_marked (ws : List Word) :
    ∀ (f : String → List Word) (k : String), k ≠ "" →
      (ws.foldl fmtStep f) k = (irregList ws k).reverse ++ (f k ++ regList ws k) := by
  induction ws with
  | nil =>
      intro f k hk
      simp [irregList, regList]
  | cons w ws ih =>
      intro f k hk
      rw [List.foldl_cons, ih (fmtStep f w) k hk]
      cases hc : findCat w with
      | some k2 =>
          by_cases hkk : k2 = k
          · subst hkk
            cases hi : isIrregAfter w k2
            · have hstep : (fmtStep f w) k2 = f k2 ++ [stripCat w k2] := by
                simp [fmtStep, hc, hi]
              have hirr : irregList (w :: ws) k2 = irregList ws k2 := by
                simp [irregList, List.filterMap_cons, hc, hi]
              have hreg : regList (w :: ws) k2 = stripCat w k2 :: regList ws k2 := by
                simp [regList, List.filterMap_cons, hc, hi]
              rw [hstep, hirr, hreg]
              simp [List.append_assoc]
            · have hstep : (fmtStep f w) k2 = stripCat w k2 :: f k2 := by
                simp [fmtStep, hc, hi]
              have hirr : irregList (w :: ws) k2 = stripCat w k2 :: irregList ws k2 := by
                simp [irregList, List.filterMap_cons, hc, hi]
              have hreg : regList (w :: ws) k2 = regList ws k2 := by
                simp [regList, List.filterMap_cons, hc, hi]
              rw [hstep, hirr, hreg]
              simp [List.reverse_cons, List.append_assoc]
          · have hstep : (fmtStep f w) k = f k := by
              cases hi : isIrregAfter w k2 <;> simp [fmtStep, hc, hi, Ne.symm hkk]
            have hirr : irregList (w :: ws) k = irregList ws k := by
              simp [irregList, List.filterMap_cons, hc, hkk]
            have hreg : regList (w :: ws) k = regList ws k := by
              simp [regList, List.filterMap_cons, hc, hkk]
            rw [hstep, hirr, hreg]
      | none =>
          have hstep : (fmtStep f w) k = f k := by
            simp [fmtStep, hc, hk]
          have hirr : irregList (w :: ws) k = irregList ws k := by
            simp [irregList, List.filterMap_cons, hc]
          have hreg : regList (w :: ws) k = regList ws k := by
            simp [regList, List.filterMap_cons, hc]
          rw [hstep, hirr, hreg]

theorem foldl_fmtStep_catch (ws : List Word) :
    ∀ f : String → List Word, (ws.foldl fmtStep f) "" = f "" ++ catchList ws := by
  induction ws with
  | nil =>
      intro f
      simp [catchList]
  | cons w ws ih =>
      intro f
      rw [List.foldl_cons, ih (fmtStep f w)]
      cases hc : findCat w with
      | some k2 =>
          have hk2 : ¬ ("" : String) = k2 := by
            intro h
            have : findCat w = some "" := by rw [hc, ← h]
            exact findCat_ne_some_nilstr w this
          have hstep : (fmtStep f w) "" = f "" := by
            cases hi : isIrregAfter w k2 <;> simp [fmtStep, hc, hi, hk2]
          have hcat : catchList (w :: ws) = catchList ws := by
            simp [catchList, List.filterMap_cons, hc]
          rw [hstep, hcat]
      | none =>
          have hstep : (fmtStep f w) "" = f "" ++ [w] := by
            simp [fmtStep, hc]
          have hcat : catchList (w :: ws) = w :: catchList ws := by
            simp [catchList, List.filterMap_cons, hc]
          rw [hstep, hcat]
          simp [List.append_assoc]

/-- Claim C2 counterexample: two irregular-marked words in the same
category, given in translation-sorted input order (a before b), end up in
the bucket in the opposite order, because each irregular word is inserted at
position 0; so the relative order among irregular words does not mirror the
input order. -/
theorem formatentry_irregular_counterexample :
    formatentryBuckets [wIrregA, wIrregB] "n:" =
      [stripCat wIrregB "n:", stripCat wIrregA "n:"] ∧
    stripCat wIrregA "n:" ≠ stripCat wIrregB "n:" ∧
    trLe wIrregA wIrregB ∧
    isIrregAfter wIrregA "n:" = true ∧
    isIrregAfter wIrregB "n:" = true ∧
    [stripCat wIrregB "n:", stripCat wIrregA "n:"] ≠
      [stripCat wIrregA "n:", stripCat wIrregB "n:"] := by
  refine ⟨by decide, by decide, ?_, by decide, by decide, by decide⟩
  unfold trLe
  decide

/-- Claim C2 (amended): in every marked category bucket the irregular-marked
words all precede the non-irregular ones, but their relative order is the
reverse of the translation-sorted input order (each is inserted at the
front); the non-irregular words follow in input order; the catch-all bucket
receives its words in plain input order with no irregular-first
reordering. -/
theorem formatentry_buckets_characterization (ws : List Word) (k : String) (hk : k ≠ "") :
    formatentryBuckets ws k = (irregList ws k).reverse ++ regList ws k ∧
    formatentryBuckets ws "" = catchList ws := by
  constructor
  · have h := foldl_fmtStep_marked ws (fun _ => []) k hk
    simpa using h
  · have h := foldl_fmtStep_catch ws (fun _ => [])
    simpa using h

/-- Witness for formatentry_buckets_characterization at the counterexample
input: the bucket equals the reversed irregular list. -/
theorem formatentry_buckets_characterization_witness :
    formatentryBuckets [wIrregA, wIrregB] "n:" =
      (irregList [wIrregA, wIrregB] "n:").reverse ++ regList [wIrregA, wIrregB] "n:" ∧
    formatentryBuckets [wIrregA, wIrregB] "" = catchList [wIrregA, wIrregB] :=
  formatentry_buckets_characterization [wIrregA, wIrregB] "n:" (by decide)

/-- Claim C4: a word is filed into exactly one bucket, the one whose marker
is earliest in the fixed priority list among the markers occurring in its
wtype tokens; the matched token is removed from the stored word's wtype; a
word matching no marker goes, unmodified, to the catch-all bucket only. -/
theorem formatentry_category_priority (w : Word) :
    (∀ pre k post, alltypes = pre ++ k :: post →
      (∀ k2 ∈ pre, (pySplit w.wtype).contains k2 = false) →
      (pySplit w.wtype).contains k = true →
        formatentryBuckets [w] k = [stripCat w k] ∧
        (∀ q, q ≠ k → formatentryBuckets [w] q = [])) ∧
    ((∀ k2 ∈ alltypes, (pySplit w.wtype).contains k2 = false) →
      formatentryBuckets [w] "" = [w] ∧
      (∀ q, q ≠ "" → formatentryBuckets [w] q = [])) := by
  constructor
  · intro pre k post hsplit hpre hk
    have hfind : findCat w = some k := by
      unfold findCat
      rw [hsplit]
      exact find?_prefix_first pre k post hpre hk
    have hbuckets : ∀ q, formatentryBuckets [w] q = (fmtStep (fun _ => []) w) q := by
      intro q
      rfl
    constructor
    · rw [hbuckets k]
      cases hi : isIrregAfter w k <;> simp [fmtStep, hfind, hi]
    · intro q hq
      rw [hbuckets q]
      cases hi : isIrregAfter w k <;> simp [fmtStep, hfind, hi, hq]
  · intro hall
    have hfind : findCat w = none := by
      unfold findCat
      rw [List.find?_eq_none]
      intro x hx
      rw [hall x hx]
      simp
    constructor
    · show (fmtStep (fun _ => []) w) "" = [w]
      simp [fmtStep, hfind]
    · intro q hq
      show (fmtStep (fun _ => []) w) q = []
      simp [fmtStep, hfind, hq]

/-- Witness for formatentry_category_priority: a word carrying both the verb
and the noun marker is filed only under the noun marker (earliest in the
priority list) with that token removed, and both the verb and the catch-all
buckets stay empty. -/
theorem formatentry_category_priority_witness :
    formatentryBuckets [wTwoCats] "n:" = [⟨"h", "t", "v:", "", ""⟩] ∧
    formatentryBuckets [wTwoCats] "v:" = [] ∧
    formatentryBuckets [wTwoCats] "" = [] := by
  have h := (formatentry_category_priority wTwoCats).1 []
    "n:" ["v:", "adj:", "adv:", "prep:", "conj:", "interj:", "num:", ""]
    rfl (by intro k2 hk2; cases hk2) (by decide)
  exact ⟨h.1.trans (by decide), h.2 "v:" (by decide), h.2 "" (by decide)⟩

theorem write_words_aux_cons (cfg : StarCfg) (wm : String → List Word) (k : String)
    (ks : List String) (off : Nat) :
    write_words_aux cfg wm (k :: ks) off =
      (⟨convert cfg k, off, (entryFor cfg wm k).length⟩ ::
        (write_words_aux cfg wm ks (off + (entryFor cfg wm k).length)).1,
       entryFor cfg wm k ++ (write_words_aux cfg wm ks (off + (entryFor cfg wm k).length)).2) :=
  rfl

theorem write_words_aux_spec (cfg : StarCfg) (wm : String → List Word) :
    ∀ (ks : List String) (off : Nat),
      ((write_words_aux cfg wm ks off).1.length = ks.length) ∧
      ((write_words_aux cfg wm ks off).2 = (ks.map (entryFor cfg wm)).flatten) ∧
      (∀ i (h1 : i < (write_words_aux cfg wm ks off).1.length) (h2 : i < ks.length),
        (write_words_aux cfg wm ks off).1.get ⟨i, h1⟩ =
          ⟨convert cfg (ks.get ⟨i, h2⟩),
           off + ((ks.take i).map (fun k2 => (entryFor cfg wm k2).length)).sum,
           (entryFor cfg wm (ks.get ⟨i, h2⟩)).length⟩) := by
  intro ks
  induction ks with
  | nil =>
      intro off
      refine ⟨rfl, rfl, ?_⟩
      intro i h1 h2
      exact absurd h2 (Nat.not_lt_zero i)
  | cons k ks ih =>
      intro off
      refine ⟨?_, ?_, ?_⟩
      · rw [write_words_aux_cons]
        simp [(ih (off + (entryFor cfg wm k).length)).1]
      · rw [write_words_aux_cons]
        simp [(ih (off + (entryFor cfg wm k).length)).2.1]
      · intro i h1 h2
        have hc : (write_words_aux cfg wm (k :: ks) off).1 =
            ⟨convert cfg k, off, (entryFor cfg wm k).length⟩ ::
              (write_words_aux cfg wm ks (off + (entryFor cfg wm k).length)).1 :=
          congrArg Prod.fst (write_words_aux_cons cfg wm k ks off)
        cases i with
        | zero =>
            rw [List.get_of_eq hc]
            simp
        | succ j =>
            have hlen := (ih (off + (entryFor cfg wm k).length)).1
            have hj2 : j < ks.length := by
              simp only [List.length_cons] at h2
              omega
            have hj1 : j < (write_words_aux cfg wm ks
                (off + (entryFor cfg wm k).length)).1.length := by
              omega
            have hrec := (ih (off + (entryFor cfg wm k).length)).2.2 j hj1 hj2
            rw [List.get_of_eq hc, List.get_cons_succ, hrec]
            simp [List.take_succ_cons, Nat.add_assoc]

theorem flatten_drop_take (L : List (List Nat)) :
    ∀ i (h : i < L.length),
      ((L.flatten).drop (((L.take i).map List.length).sum)).take (L.get ⟨i, h⟩).length =
        L.get ⟨i, h⟩ := by
  induction L with
  | nil =>
      intro i h
      exact absurd h (Nat.not_lt_zero i)
  | cons x xs ih =>
      intro i h
      cases i with
      | zero => simp [List.flatten_cons, List.take_left]
      | succ j =>
          have hj : j < xs.length := by
            simp only [List.length_cons] at h
            omega
          have := ih j hj
          simp only [List.flatten_cons, List.take_succ_cons, List.map_cons, List.sum_cons,
            List.drop_append, List.get_cons_succ]
          exact this

/-- Claim C1: write_words produces index records and data entries in the
same collated key order; the first record's offset is 0, consecutive records
are contiguous (offset plus length equals the next offset), the last
record's offset plus length equals the total data size, and the data bytes
at every record's range equal the converted formatted entry for its key. -/
theorem write_words_offsets (cfg : StarCfg) (words : List (String × List Word)) :
    ((wwRecs cfg words).map IdxRecord.key = (wwKeys cfg words).map (convert cfg)) ∧
    (wwData cfg words =
      ((wwKeys cfg words).map (entryFor cfg (lookupWords words))).flatten) ∧
    (∀ h : 0 < (wwRecs cfg words).length, ((wwRecs cfg words).get ⟨0, h⟩).off = 0) ∧
    (∀ i (h1 : i < (wwRecs cfg words).length) (h2 : i + 1 < (wwRecs cfg words).length),
      ((wwRecs cfg words).get ⟨i, h1⟩).off + ((wwRecs cfg words).get ⟨i, h1⟩).len =
        ((wwRecs cfg words).get ⟨i + 1, h2⟩).off) ∧
    (∀ h : wwRecs cfg words ≠ [],
      ((wwRecs cfg words).getLast h).off + ((wwRecs cfg words).getLast h).len =
        (wwData cfg words).length) ∧
    (∀ i (h1 : i < (wwRecs cfg words).length) (h2 : i < (wwKeys cfg words).length),
      ((wwRecs cfg words).get ⟨i, h1⟩).key =
        convert cfg ((wwKeys cfg words).get ⟨i, h2⟩) ∧
      ((wwData cfg words).drop ((wwRecs cfg words).get ⟨i, h1⟩).off).take
          ((wwRecs cfg words).get ⟨i, h1⟩).len =
        entryFor cfg (lookupWords words) ((wwKeys cfg words).get ⟨i, h2⟩)) := by
  obtain ⟨hlen, hdata, hget⟩ :=
    write_words_aux_spec cfg (lookupWords words) (wwKeys cfg words) 0
  have hRlen : (wwRecs cfg words).length = (wwKeys cfg words).length := hlen
  have hget2 : ∀ i (h1 : i < (wwRecs cfg words).length)
      (h2 : i < (wwKeys cfg words).length),
      (wwRecs cfg words).get ⟨i, h1⟩ =
        ⟨convert cfg ((wwKeys cfg words).get ⟨i, h2⟩),
         0 + (((wwKeys cfg words).take i).map
            (fun k2 => (entryFor cfg (lookupWords words) k2).length)).sum,
         (entryFor cfg (lookupWords words) ((wwKeys cfg words).get ⟨i, h2⟩)).length⟩ := hget
  have hD2 : wwData cfg words =
      ((wwKeys cfg words).map (entryFor cfg (lookupWords words))).flatten := hdata
  have hoff : ∀ i (h1 : i < (wwRecs cfg words).length),
      ((wwRecs cfg words).get ⟨i, h1⟩).off =
        (((wwKeys cfg words).take i).map
          (fun k2 => (entryFor cfg (lookupWords words) k2).length)).sum := by
    intro i h1
    have h2 : i < (wwKeys cfg words).length := by omega
    rw [hget2 i h1 h2]
    simp
  have hlen3 : ∀ i (h1 : i < (wwRecs cfg words).length)
      (h2 : i < (wwKeys cfg words).length),
      ((wwRecs cfg words).get ⟨i, h1⟩).len =
        (entryFor cfg (lookupWords words) ((wwKeys cfg words).get ⟨i, h2⟩)).length := by
    intro i h1 h2
    rw [hget2 i h1 h2]
  have hstep : ∀ i (h : i < (wwKeys cfg words).length),
      (((wwKeys cfg words).take (i + 1)).map
          (fun k2 => (entryFor cfg (lookupWords words) k2).length)).sum =
        (((wwKeys cfg words).take i).map
          (fun k2 => (entryFor cfg (lookupWords words) k2).length)).sum +
        (entryFor cfg (lookupWords words) ((wwKeys cfg words).get ⟨i, h⟩)).length := by
    intro i h
    rw [List.map_take, List.map_take, List.sum_take_succ _ i (by simpa using h)]
    congr 1
    rw [List.getElem_map]
    simp
  refine ⟨?_, hdata, ?_, ?_, ?_, ?_⟩
  · show (write_words_aux cfg (lookupWords words) (wwKeys cfg words) 0).1.map
        IdxRecord.key = (wwKeys cfg words).map (convert cfg)
    clear hget hget2 hoff hlen3
    generalize (0 : Nat) = off
    induction wwKeys cfg words generalizing off with
    | nil => rfl
    | cons k ks ih =>
        rw [write_words_aux_cons]
        simp only [List.map_cons, List.cons.injEq]
        exact ⟨trivial, ih _⟩
  · intro h
    rw [hoff 0 h]
    simp
  · intro i h1 h2
    have hki : i < (wwKeys cfg words).length := by omega
    rw [hoff i h1, hoff (i + 1) h2, hlen3 i h1 hki, hstep i hki]
  · intro h
    have hpos : 0 < (wwRecs cfg words).length := List.length_pos.mpr h
    rw [List.getLast_eq_get]
    have hki : (wwRecs cfg words).length - 1 < (wwKeys cfg words).length := by omega
    rw [hoff _ _, hlen3 _ _ hki]
    have hDlen : (wwData cfg words).length =
        ((wwKeys cfg words).map
          (fun k2 => (entryFor cfg (lookupWords words) k2).length)).sum := by
      rw [hD2, List.length_flatten, List.map_map]
      rfl
    rw [hDlen]
    have hs := hstep ((wwRecs cfg words).length - 1) hki
    have htake : (wwKeys cfg words).take ((wwRecs cfg words).length - 1 + 1) =
        wwKeys cfg words := by
      have he : (wwRecs cfg words).length - 1 + 1 = (wwKeys cfg words).length := by omega
      rw [he, List.take_length]
    rw [htake] at hs
    omega
  · intro i h1 h2
    have hkey : ((wwRecs cfg words).get ⟨i, h1⟩).key =
        convert cfg ((wwKeys cfg words).get ⟨i, h2⟩) := by
      rw [hget2 i h1 h2]
    refine ⟨hkey, ?_⟩
    have hmi : i < ((wwKeys cfg words).map (entryFor cfg (lookupWords words))).length := by
      simpa using h2
    have hft := flatten_drop_take
      ((wwKeys cfg words).map (entryFor cfg (lookupWords words))) i hmi
    have hsum : ((((wwKeys cfg words).map (entryFor cfg (lookupWords words))).take i).map
        List.length).sum =
        (((wwKeys cfg words).take i).map
          (fun k2 => (entryFor cfg (lookupWords words) k2).length)).sum := by
      rw [← List.map_take, List.map_map]
      rfl
    rw [hsum, List.get_map] at hft
    rw [hoff i h1, hlen3 i h1 h2, hD2]
    exact hft

/-- Witness for write_words_offsets on a concrete two-key mapping: the key
order conjunct via the theorem, plus concrete offsets (first offset 0,
contiguity of the two records). -/
theorem write_words_offsets_witness :
    ((wwRecs witCfg wwWit).map IdxRecord.key =
      (wwKeys witCfg wwWit).map (convert witCfg)) ∧
    (0 : Nat) < (wwRecs witCfg wwWit).length ∧
    (1 : Nat) < (wwRecs witCfg wwWit).length ∧
    ((wwRecs witCfg wwWit).getD 0 ⟨[], 0, 0⟩).off = 0 ∧
    ((wwRecs witCfg wwWit).getD 0 ⟨[], 0, 0⟩).off +
        ((wwRecs witCfg wwWit).getD 0 ⟨[], 0, 0⟩).len =
      ((wwRecs witCfg wwWit).getD 1 ⟨[], 0, 0⟩).off := by
  have h := write_words_offsets witCfg wwWit
  exact ⟨h.1, by decide, by decide, by decide, by decide⟩

theorem pyTupLt_asymm (x y : List Nat × String) (hxy : pyTupLt x y) : ¬ pyTupLt y x := by
  intro hyx
  rcases hxy with h1 | ⟨he1, h2⟩ <;> rcases hyx with g1 | ⟨ge1, g2⟩
  · exact (asymm h1) g1
  · rw [ge1] at h1
    exact (asymm h1) h1
  · rw [he1] at g1
    exact (asymm g1) g1
  · exact (asymm h2) g2

theorem lexNat_trichotomy (u v : List Nat) :
    List.Lex (· < ·) u v ∨ u = v ∨ List.Lex (· < ·) v u := by
  have inst : IsTrichotomous (List Nat) (List.Lex (· < ·)) := inferInstance
  exact inst.trichotomous u v

theorem lexNat_trans {u v w : List Nat} (h1 : List.Lex (· < ·) u v)
    (h2 : List.Lex (· < ·) v w) : List.Lex (· < ·) u w := by
  have inst : IsTrans (List Nat) (List.Lex (· < ·)) := inferInstance
  exact inst.trans u v w h1 h2

theorem tupLe_total : IsTotal (List Nat × String) tupLe := by
  constructor
  intro x y
  by_cases h : pyTupLt y x
  · exact Or.inr (pyTupLt_asymm y x h)
  · exact Or.inl h

theorem tupLe_trans : IsTrans (List Nat × String) tupLe := by
  constructor
  intro a b c hab hbc hca
  unfold tupLe pyTupLt at hab hbc
  push_neg at hab hbc
  obtain ⟨hab1, hab2⟩ := hab
  obtain ⟨hbc1, hbc2⟩ := hbc
  rcases hca with h1 | ⟨he, h2⟩
  · rcases lexNat_trichotomy a.1 b.1 with hf | hf | hf
    · exact hbc1 (lexNat_trans h1 hf)
    · rw [hf] at h1
      exact hbc1 h1
    · exact hab1 hf
  · rcases lexNat_trichotomy a.1 b.1 with hf | hf | hf
    · refine hbc1 ?_
      rw [he]
      exact hf
    · have hnocpba := hab2 hf.symm
      have hc_b : c.1 = b.1 := by rw [he, hf]
      have hnocpcb := hbc2 hc_b
      rcases lexNat_trichotomy (pyCp b.2) (pyCp a.2) with hcc | hcc | hcc
      · exact hnocpba hcc
      · rw [← hcc] at h2
        exact hnocpcb h2
      · exact hnocpcb (lexNat_trans h2 hcc)
    · exact hab1 hf

/-- Claim C5: getsortedwords returns the original, untransformed keys as a
permutation of the input, ordered by the lowercased transform (ascii
deaccented bytes in ascii mode, utf-8 bytes otherwise, both lowercased with
bytes.lower), and for distinct keys ties between equal transforms are broken
by the UTF-8 encoded byte value of the original key, making the order total
and deterministic. -/
theorem getsortedwords_sorted (cfg : StarCfg) (words : List String) (hnd : words.Nodup) :
    (getsortedwords cfg words).Perm words ∧
    List.Pairwise (collLt cfg) (getsortedwords cfg words) := by
  have hinj : Function.Injective (fun item => (sortTransform cfg item, item)) := by
    intro a b hab
    exact congrArg Prod.snd hab
  have hperm0 := List.perm_insertionSort tupLe
    (words.map (fun item => (sortTransform cfg item, item)))
  have hsorted := @List.sorted_insertionSort _ tupLe _ tupLe_total tupLe_trans
    (words.map (fun item => (sortTransform cfg item, item)))
  constructor
  · have hp := hperm0.map (fun t : List Nat × String => t.2)
    simpa [getsortedwords, List.map_map, Function.comp_def] using hp
  · have hnd2 : (List.insertionSort tupLe
        (words.map (fun item => (sortTransform cfg item, item)))).Nodup :=
      hperm0.symm.nodup (hnd.map hinj)
    have hcomb := hsorted.and hnd2
    have hmemT : ∀ x ∈ List.insertionSort tupLe
        (words.map (fun item => (sortTransform cfg item, item))),
        x.1 = sortTransform cfg x.2 := by
      intro x hx
      have hx2 := hperm0.mem_iff.mp hx
      obtain ⟨a, _, rfl⟩ := List.mem_map.mp hx2
      rfl
    have hfinal : List.Pairwise (fun x y : List Nat × String => collLt cfg x.2 y.2)
        (List.insertionSort tupLe
          (words.map (fun item => (sortTransform cfg item, item)))) := by
      refine List.Pairwise.imp_of_mem ?_ hcomb
      intro x y hx hy hr
      obtain ⟨hle, hne⟩ := hr
      have hx1 := hmemT x hx
      have hy1 := hmemT y hy
      unfold tupLe pyTupLt at hle
      push_neg at hle
      obtain ⟨hno1, hno2⟩ := hle
      rcases lexNat_trichotomy x.1 y.1 with hf | hf | hf
      · left
        rw [← hx1, ← hy1]
        exact hf
      · have hcpn : ¬ List.Lex (· < ·) (pyCp y.2) (pyCp x.2) := hno2 hf.symm
        rcases lexNat_trichotomy (pyCp x.2) (pyCp y.2) with hc | hc | hc
        · right
          constructor
          · rw [← hx1, ← hy1, hf]
          · rw [pyEncodeUtf8_eq_utf8L, pyEncodeUtf8_eq_utf8L]
            exact utf8L_lex hc
        · exact absurd (Prod.ext hf (pyCp_inj hc)) hne
        · exact absurd hc hcpn
      · exact absurd hf hno1
    exact List.pairwise_map.mpr hfinal

/-- Witness for getsortedwords_sorted on two concrete distinct keys. -/
theorem getsortedwords_sorted_witness :
    (getsortedwords witCfg ["b", "A"]).Perm ["b", "A"] ∧
    List.Pairwise (collLt witCfg) (getsortedwords witCfg ["b", "A"]) :=
  getsortedwords_sorted witCfg ["b", "A"] (by decide)
